import Mathlib

/-!
Verification of the reorganization-tolerant confirmation buffer
(src/src/buffer.rs) and the swap-direction classifier (src/src/parser.rs)
of the uniswap-v3-playground repository.

The buffer is embedded as a pure state-passing function over a Lean
structure mirroring the Rust struct.  Rust u64 arithmetic is modelled on
Nat with the modulus 2 ^ 64 made explicit: the unguarded computation
last_offset + 1 overflows exactly when last_offset = 2 ^ 64 - 1, which in
a debug build is a panic; that outcome is modelled as the result none.
All other results are some (result, post-state), where the post-state is
the Rust self after the call returned.
-/

namespace UniswapPlayground

/-- The u64 modulus: a u64 value v satisfies v < U64M. -/
def U64M : Nat := 2 ^ 64

/-- Mirrors struct ReorganizingBuffer of src/src/buffer.rs.  The VecDeque
is a list whose head is the front of the deque and whose last element is
the back. -/
structure ReorganizingBuffer (Value : Type) where
  depth : Nat
  queue : List (Nat × List Value)
deriving DecidableEq

/-- Mirrors enum ReorganizingBufferError of src/src/buffer.rs. -/
inductive ReorganizingBufferError where
  | MissingOffset : Nat → ReorganizingBufferError
  | DepthExceeded : Nat → ReorganizingBufferError
deriving DecidableEq

/-- Mirrors ReorganizingBuffer::new: an empty window (the capacity hint
has no observable effect). -/
def ReorganizingBuffer.new (Value : Type) (depth : Nat) :
    ReorganizingBuffer Value :=
  { depth := depth, queue := [] }

/-- Lines 41-49 of push: append the new item, then pop and return the
front entry when the window length exceeds depth. -/
def ReorganizingBuffer.confirmStep {Value : Type} (depth : Nat)
    (queue : List (Nat × List Value)) :
    Option (Except ReorganizingBufferError (Option (Nat × List Value)) ×
      ReorganizingBuffer Value) :=
  if queue.length > depth then
    some (.ok queue.head?, { depth := depth, queue := queue.tail })
  else
    some (.ok none, { depth := depth, queue := queue })

/-- Mirrors ReorganizingBuffer::push.  On a non-empty window the code
computes last_offset + 1 on u64 without a guard: when that addition
overflows (last_offset = 2 ^ 64 - 1) a debug build panics, modelled as
none.  The eviction loop pops the back reorg_depth times; a pop on an
empty deque is a no-op, so the survivors are the first
length - reorg_depth entries (truncated subtraction).  The usize-to-u64
conversion of depth is lossless on the 64-bit target, so self.depth is
compared directly. -/
def ReorganizingBuffer.push {Value : Type} (b : ReorganizingBuffer Value)
    (new_offset : Nat) (new_value : List Value) :
    Option (Except ReorganizingBufferError (Option (Nat × List Value)) ×
      ReorganizingBuffer Value) :=
  match b.queue.getLast? with
  | some (last_offset, _) =>
    if U64M ≤ last_offset + 1 then
      none
    else
      let expected_offset := last_offset + 1
      if new_offset > expected_offset then
        some (.error (.MissingOffset expected_offset), b)
      else
        let reorg_depth := expected_offset - new_offset
        if reorg_depth > b.depth then
          some (.error (.DepthExceeded reorg_depth), b)
        else
          ReorganizingBuffer.confirmStep b.depth
            (b.queue.take (b.queue.length - reorg_depth) ++
              [(new_offset, new_value)])
  | none =>
    ReorganizingBuffer.confirmStep b.depth
      (b.queue ++ [(new_offset, new_value)])

/-- Buffer states reachable from new(depth) by successful (Ok-returning,
non-panicking) push calls with u64 offsets. -/
inductive ReorganizingBuffer.Reachable {Value : Type} (depth : Nat) :
    ReorganizingBuffer Value → Prop where
  | base : Reachable depth (ReorganizingBuffer.new Value depth)
  | step {b b' : ReorganizingBuffer Value} {o : Nat} {v : List Value}
      {out : Option (Nat × List Value)} :
      Reachable depth b → o < U64M →
      b.push o v = some (.ok out, b') → Reachable depth b'

/-- One step of the driving loop: feed an input to the buffer, collect a
confirmed entry when one is returned, keep the state on an error (the
window is unchanged there), and halt for good on a panic. -/
def ReorganizingBuffer.stepRun {Value : Type}
    (s : Option (ReorganizingBuffer Value) × List (Nat × List Value))
    (inp : Nat × List Value) :
    Option (ReorganizingBuffer Value) × List (Nat × List Value) :=
  match s.1 with
  | none => s
  | some b =>
    match b.push inp.1 inp.2 with
    | none => (none, s.2)
    | some (.error _, b') => (some b', s.2)
    | some (.ok out, b') => (some b', s.2 ++ out.toList)

/-- Run a sequence of push calls from new(depth), returning the final
state (none once a panic occurred) and the list of confirmed entries in
emission order. -/
def ReorganizingBuffer.runPush (Value : Type) (depth : Nat)
    (inputs : List (Nat × List Value)) :
    Option (ReorganizingBuffer Value) × List (Nat × List Value) :=
  inputs.foldl ReorganizingBuffer.stepRun
    (some (ReorganizingBuffer.new Value depth), [])

/-! ## The swap-direction classifier of src/src/parser.rs -/

/-- The rust_decimal Decimal as used by the parser: a scaled magnitude
together with an explicit sign flag.  is_sign_positive reads only the
sign flag, so a zero with a set sign flag counts as negative and a zero
with a clear sign flag counts as positive. -/
structure Decimal where
  mantissa : Nat
  scale : Nat
  negative : Bool
deriving DecidableEq

def Decimal.is_sign_positive (d : Decimal) : Bool := !d.negative

def Decimal.is_sign_negative (d : Decimal) : Bool := d.negative

/-- Mirrors struct SwapAmounts of src/src/event.rs. -/
structure SwapAmounts where
  dai : Decimal
  usdc : Decimal
deriving DecidableEq

/-- Mirrors enum SwapDirection of src/src/event.rs. -/
inductive SwapDirection where
  | DaiToUsdc
  | UsdcToDai
deriving DecidableEq

/-- Mirrors SwapParser::get_direction of src/src/parser.rs: classify by
the pair of sign flags, failing when they agree. -/
def SwapParser.get_direction (amounts : SwapAmounts) :
    Except String SwapDirection :=
  let dai_pos := amounts.dai.is_sign_positive
  let usdc_pos := amounts.usdc.is_sign_positive
  match dai_pos, usdc_pos with
  | true, false => .ok .DaiToUsdc
  | false, true => .ok .UsdcToDai
  | true, true =>
    .error "Swap amounts must have distinct signs, but both are positive"
  | false, false =>
    .error "Swap amounts must have distinct signs, but both are negative"

/-! ## Arithmetic progressions of offsets

natRange f n is the list f, f+1, ..., f+n-1.  The window invariant is
that the offsets of the queue form such a progression. -/

/-- The list of n consecutive naturals starting at f. -/
def natRange : Nat → Nat → List Nat
  | _, 0 => []
  | f, Nat.succ n => f :: natRange (f + 1) n

theorem natRange_length (f n : Nat) : (natRange f n).length = n := by
  induction n generalizing f with
  | zero => rfl
  | succ n ih => simp [natRange, ih]

theorem natRange_take (k n f : Nat) :
    (natRange f n).take k = natRange f (min k n) := by
  induction n generalizing f k with
  | zero => simp [natRange]
  | succ n ih =>
    cases k with
    | zero => simp [natRange]
    | succ k =>
      simp [natRange, List.take, ih, Nat.succ_min_succ]

theorem natRange_snoc (n f : Nat) :
    natRange f n ++ [f + n] = natRange f (n + 1) := by
  induction n generalizing f with
  | zero => simp [natRange]
  | succ n ih =>
    simp only [natRange, List.cons_append]
    have h := ih (f + 1)
    have he : f + 1 + n = f + (n + 1) := by omega
    rw [he] at h
    rw [h]
    simp [natRange]

theorem mem_natRange {x : Nat} (n f : Nat) :
    x ∈ natRange f n ↔ f ≤ x ∧ x < f + n := by
  induction n generalizing f with
  | zero => simp [natRange]
  | succ n ih =>
    simp only [natRange, List.mem_cons, ih]
    omega

theorem natRange_getLast (n f : Nat) (h : 0 < n) :
    (natRange f n).getLast? = some (f + n - 1) := by
  induction n generalizing f with
  | zero => omega
  | succ n ih =>
    cases n with
    | zero => simp [natRange]
    | succ m =>
      simp only [natRange]
      rw [List.getLast?_cons_cons]
      have h2 := ih (f + 1) (by omega)
      simp only [natRange] at h2
      rw [h2]
      congr 1
      omega

theorem natRange_get (n f i : Nat) (h : i < (natRange f n).length) :
    (natRange f n).get ⟨i, h⟩ = f + i := by
  induction n generalizing f i with
  | zero => simp [natRange] at h
  | succ n ih =>
    cases i with
    | zero => simp [natRange]
    | succ i =>
      simp only [natRange, List.get_cons_succ]
      rw [ih]
      omega

theorem natRange_tail (n f : Nat) :
    (natRange f (n + 1)).tail = natRange (f + 1) n := by
  simp [natRange]

theorem natRange_head (n f : Nat) :
    (natRange f (n + 1)).head? = some f := by
  simp [natRange]

/-! ## The window invariant and its preservation by push -/

theorem offsets_tail {V : Type} (q : List (Nat × List V)) :
    q.tail.map Prod.fst = (q.map Prod.fst).tail := by
  cases q <;> simp

theorem confirmStep_gt {V : Type} {depth : Nat} {q : List (Nat × List V)}
    (h : q.length > depth) :
    ReorganizingBuffer.confirmStep depth q =
      some (.ok q.head?, { depth := depth, queue := q.tail }) := by
  simp [ReorganizingBuffer.confirmStep, h]

theorem confirmStep_le {V : Type} {depth : Nat} {q : List (Nat × List V)}
    (h : q.length ≤ depth) :
    ReorganizingBuffer.confirmStep depth q =
      some (.ok none, { depth := depth, queue := q }) := by
  simp [ReorganizingBuffer.confirmStep]
  omega

/-- Every successful push preserves the window invariant: the depth field
is untouched, the window length stays at most depth, the window offsets
form a progression of consecutive naturals, and a confirmed entry's
offset is below every offset remaining in the window. -/
theorem push_preserves {V : Type} {b b' : ReorganizingBuffer V} {o : Nat}
    {v : List V} {out : Option (Nat × List V)}
    (hlen : b.queue.length ≤ b.depth)
    (hf : ∃ f, b.queue.map Prod.fst = natRange f b.queue.length)
    (hp : b.push o v = some (.ok out, b')) :
    b'.depth = b.depth ∧ b'.queue.length ≤ b.depth ∧
      (∃ g, b'.queue.map Prod.fst = natRange g b'.queue.length) ∧
      ∀ c, out = some c → ∀ e ∈ b'.queue, c.1 < e.1 := by
  obtain ⟨f, hf⟩ := hf
  cases hq : b.queue.getLast? with
  | none =>
    have hnil : b.queue = [] := List.getLast?_eq_none_iff.mp hq
    simp only [ReorganizingBuffer.push, hnil, List.getLast?_nil,
      List.nil_append] at hp
    by_cases hd : b.depth = 0
    · rw [confirmStep_gt (by simp [hd])] at hp
      simp only [Option.some.injEq, Prod.mk.injEq] at hp
      obtain ⟨h1, h2⟩ := hp
      simp only [Except.ok.injEq] at h1
      subst h2
      refine ⟨rfl, by simp, ⟨0, by simp [natRange]⟩, ?_⟩
      intro c _ e he
      simp at he
    · rw [confirmStep_le (by simp; omega)] at hp
      simp only [Option.some.injEq, Prod.mk.injEq] at hp
      obtain ⟨h1, h2⟩ := hp
      simp only [Except.ok.injEq] at h1
      subst h2
      refine ⟨rfl, by simp; omega, ⟨o, by simp [natRange]⟩, ?_⟩
      intro c hc
      simp [← h1] at hc
  | some p =>
    obtain ⟨last, w⟩ := p
    have hne : b.queue ≠ [] := by
      intro h
      rw [h] at hq
      simp [List.getLast?] at hq
    have hL : 0 < b.queue.length := List.length_pos.mpr hne
    have hlast : last = f + b.queue.length - 1 := by
      have h1 : (b.queue.map Prod.fst).getLast? = some last := by
        rw [List.getLast?_map, hq]
        rfl
      rw [hf, natRange_getLast _ _ hL] at h1
      simp only [Option.some.injEq] at h1
      omega
    simp only [ReorganizingBuffer.push, hq] at hp
    split at hp
    · exact absurd hp (by simp)
    · split at hp
      · simp only [Option.some.injEq, Prod.mk.injEq] at hp
        exact absurd hp.1 (by simp)
      · split at hp
        · simp only [Option.some.injEq, Prod.mk.injEq] at hp
          exact absurd hp.1 (by simp)
        · rename_i hnov hle hdep
          set L := b.queue.length with hLdef
          set r := last + 1 - o with hrdef
          have hor : o = last + 1 - r := by omega
          set q2 := b.queue.take (L - r) ++ [(o, v)] with hq2
          have hq2len : q2.length = (L - r) + 1 := by
            rw [hq2, List.length_append, List.length_take]
            simp
          have hq2off : ∃ g, q2.map Prod.fst = natRange g ((L - r) + 1) := by
            by_cases hrL : r ≤ L
            · refine ⟨f, ?_⟩
              have hof : o = f + (L - r) := by omega
              have htk : (b.queue.take (L - r)).map Prod.fst =
                  natRange f (L - r) := by
                rw [List.map_take, hf, natRange_take]
                congr 1
                omega
              rw [hq2, List.map_append, htk, hof]
              simp only [List.map_cons, List.map_nil]
              exact natRange_snoc (L - r) f
            · refine ⟨o, ?_⟩
              have hz : L - r = 0 := by omega
              rw [hq2, hz]
              simp [natRange]
          obtain ⟨g, hoff⟩ := hq2off
          by_cases hcf : q2.length > b.depth
          · rw [confirmStep_gt hcf] at hp
            simp only [Option.some.injEq, Prod.mk.injEq] at hp
            obtain ⟨h1, h2⟩ := hp
            simp only [Except.ok.injEq] at h1
            subst h2
            have htl : q2.tail.length = L - r := by
              rw [List.length_tail, hq2len]
              omega
            have htoff : q2.tail.map Prod.fst = natRange (g + 1) (L - r) := by
              rw [offsets_tail, hoff, ← natRange_tail (L - r) g]
            refine ⟨rfl, ?_, ⟨g + 1, by rw [htl, htoff]⟩, ?_⟩
            · simp only [htl]
              omega
            · intro c hc e he
              have hhd : Option.map Prod.fst q2.head? = some g := by
                rw [← List.head?_map, hoff, natRange_head]
              rw [← h1] at hc
              rw [hc] at hhd
              simp only [Option.map_some', Option.some.injEq] at hhd
              have he1 : e.1 ∈ q2.tail.map Prod.fst :=
                List.mem_map_of_mem Prod.fst he
              rw [htoff, mem_natRange] at he1
              omega
          · rw [confirmStep_le (Nat.le_of_not_lt hcf)] at hp
            simp only [Option.some.injEq, Prod.mk.injEq] at hp
            obtain ⟨h1, h2⟩ := hp
            simp only [Except.ok.injEq] at h1
            subst h2
            refine ⟨rfl, ?_, ⟨g, by rw [hq2len, hoff]⟩, ?_⟩
            · rw [hq2len]
              rw [hq2len] at hcf
              omega
            · intro c hc
              rw [← h1] at hc
              simp at hc

/-- The window invariant holds in every reachable state: the depth field
never changes, the window never exceeds depth entries, and the window
offsets are consecutive naturals. -/
theorem reachable_inv {V : Type} {depth : Nat} {b : ReorganizingBuffer V}
    (h : ReorganizingBuffer.Reachable depth b) :
    b.depth = depth ∧ b.queue.length ≤ depth ∧
      ∃ f, b.queue.map Prod.fst = natRange f b.queue.length := by
  induction h with
  | base =>
    exact ⟨rfl, by simp [ReorganizingBuffer.new],
      ⟨0, by simp [ReorganizingBuffer.new, natRange]⟩⟩
  | step hr ho hp ih =>
    obtain ⟨hd, hlen, hf⟩ := ih
    have hh := push_preserves (by omega) hf hp
    exact ⟨by omega, by omega, hh.2.2.1⟩

theorem get_congr {α : Type} {l1 l2 : List α} (h : l1 = l2) (i : Nat)
    (h1 : i < l1.length) :
    l1.get ⟨i, h1⟩ = l2.get ⟨i, h ▸ h1⟩ := by
  subst h
  rfl

/-! ## Claims -/

/-- C4 (confirmed): in every buffer state reachable by successful push
calls from new(depth), any two adjacent window entries have offsets
differing by exactly one — the window is gap-free and duplicate-free. -/
theorem c4_offset_contiguity {V : Type} {depth : Nat}
    {b : ReorganizingBuffer V} (h : ReorganizingBuffer.Reachable depth b)
    (i : Nat) (hi : i + 1 < b.queue.length) :
    (b.queue.get ⟨i + 1, hi⟩).1 =
      (b.queue.get ⟨i, Nat.lt_of_succ_lt hi⟩).1 + 1 := by
  obtain ⟨-, -, f, hf⟩ := reachable_inv h
  have key : ∀ j (hj : j < b.queue.length),
      (b.queue.get ⟨j, hj⟩).1 = f + j := by
    intro j hj
    have hm : j < (b.queue.map Prod.fst).length := by
      simpa using hj
    have e1 : (b.queue.map Prod.fst).get ⟨j, hm⟩ =
        (b.queue.get ⟨j, hj⟩).1 := by
      simp
    have e2 : (b.queue.map Prod.fst).get ⟨j, hm⟩ = f + j := by
      rw [get_congr hf j hm]
      have hj2 : j < (natRange f b.queue.length).length := by
        rw [natRange_length]
        exact hj
      exact natRange_get b.queue.length f j hj2
    rw [← e1, e2]
  rw [key (i + 1) hi, key i (Nat.lt_of_succ_lt hi)]
  omega

/-- C4 witness: the reachable depth-3 state with window [(1, []), (2, [])]
has adjacent offsets 1 and 2 = 1 + 1. -/
theorem c4_witness :
    ((({ depth := 3, queue := [(1, []), (2, [])] } :
        ReorganizingBuffer Nat)).queue.get ⟨1, by decide⟩).1 =
      ((({ depth := 3, queue := [(1, []), (2, [])] } :
        ReorganizingBuffer Nat)).queue.get ⟨0, by decide⟩).1 + 1 := by
  have h1 : ReorganizingBuffer.Reachable 3
      ({ depth := 3, queue := [(1, [])] } : ReorganizingBuffer Nat) :=
    @ReorganizingBuffer.Reachable.step Nat 3 (ReorganizingBuffer.new Nat 3)
      { depth := 3, queue := [(1, [])] } 1 [] none
      ReorganizingBuffer.Reachable.base (by decide) rfl
  have h2 : ReorganizingBuffer.Reachable 3
      ({ depth := 3, queue := [(1, []), (2, [])] } :
        ReorganizingBuffer Nat) :=
    @ReorganizingBuffer.Reachable.step Nat 3
      { depth := 3, queue := [(1, [])] }
      { depth := 3, queue := [(1, []), (2, [])] } 2 [] none h1
      (by decide) rfl
  exact c4_offset_contiguity h2 0 (by decide)

/-- C5 (confirmed): every buffer state reachable by successful push calls
from new(depth) holds at most depth entries — the transient depth + 1
occupancy is resolved before push returns. -/
theorem c5_window_size_bound {V : Type} {depth : Nat}
    {b : ReorganizingBuffer V}
    (h : ReorganizingBuffer.Reachable depth b) :
    b.queue.length ≤ depth :=
  (reachable_inv h).2.1

/-- C5 witness: the initial depth-2 buffer satisfies the bound. -/
theorem c5_witness : (ReorganizingBuffer.new Nat 2).queue.length ≤ 2 :=
  c5_window_size_bound ReorganizingBuffer.Reachable.base

/-- C1 counterexample: with depth 2, the push sequence
1, 2, 3, 2, 1, 2, 3 makes the buffer confirm offset 1 twice (the two
reorgs in the middle each stay within depth 2 but cumulatively dig below
the already-confirmed offset 1), so the confirmed entries are not
emitted in strictly increasing offset order and not each at most once. -/
theorem c1_counterexample :
    ¬ List.Pairwise (fun a b => a < b)
      ((ReorganizingBuffer.runPush Nat 2
        [(1, [10]), (2, [20]), (3, [30]), (2, [21]), (1, [11]), (2, [22]),
          (3, [31])]).2.map Prod.fst) := by
  have h : (ReorganizingBuffer.runPush Nat 2
      [(1, [10]), (2, [20]), (3, [30]), (2, [21]), (1, [11]), (2, [22]),
        (3, [31])]).2.map Prod.fst = [1, 1] := rfl
  rw [h]
  decide

/-- C1 as amended (proved): what survives of the confirmation-order claim
is its per-call part — whenever a push on a reachable state confirms an
entry, that entry's offset is strictly below every offset still held in
the window at that moment.  The cross-call clauses (strictly increasing,
each offset at most once) are refuted by c1_counterexample. -/
theorem c1_confirmed_below_window {V : Type} {depth : Nat}
    {b b' : ReorganizingBuffer V} {o : Nat} {v : List V}
    {c : Nat × List V}
    (h : ReorganizingBuffer.Reachable depth b)
    (hp : b.push o v = some (.ok (some c), b')) :
    ∀ e ∈ b'.queue, c.1 < e.1 := by
  obtain ⟨hd, hlen, hf⟩ := reachable_inv h
  have hh := push_preserves (by omega) hf hp
  exact hh.2.2.2 c rfl

/-- C1 witness: pushing offset 2 onto the reachable depth-1 state with
window [(1, [10])] confirms (1, [10]), whose offset 1 is below the
remaining window offset 2. -/
theorem c1_witness :
    ReorganizingBuffer.push
        ({ depth := 1, queue := [(1, [10])] } : ReorganizingBuffer Nat)
        2 [20] =
      some (.ok (some (1, [10])), { depth := 1, queue := [(2, [20])] }) ∧
      (1 : Nat) < 2 := by
  have h1 : ReorganizingBuffer.Reachable 1
      ({ depth := 1, queue := [(1, [10])] } : ReorganizingBuffer Nat) :=
    @ReorganizingBuffer.Reachable.step Nat 1 (ReorganizingBuffer.new Nat 1)
      { depth := 1, queue := [(1, [10])] } 1 [10] none
      ReorganizingBuffer.Reachable.base (by decide) rfl
  refine ⟨rfl, ?_⟩
  have hp : ReorganizingBuffer.push
      ({ depth := 1, queue := [(1, [10])] } : ReorganizingBuffer Nat)
      2 [20] =
      some (.ok (some (1, [10])), { depth := 1, queue := [(2, [20])] }) :=
    rfl
  exact c1_confirmed_below_window h1 hp (2, [20]) (by simp)

/-- C2 (code bug): a depth-1 buffer whose window holds the single entry
with offset 2 ^ 64 - 1 (u64::MAX) is reachable by one successful push,
and the next push call computes last_offset + 1 on u64 without a guard,
which overflows — a debug build panics (modelled as none) and a release
build wraps — contradicting the claim that push never panics and that
this addition is guarded. -/
theorem c2_overflow_panic :
    ReorganizingBuffer.Reachable 1
        ({ depth := 1, queue := [(U64M - 1, [0])] } :
          ReorganizingBuffer Nat) ∧
      ReorganizingBuffer.push
        ({ depth := 1, queue := [(U64M - 1, [0])] } :
          ReorganizingBuffer Nat) (U64M - 1) [1] = none := by
  constructor
  · exact @ReorganizingBuffer.Reachable.step Nat 1
      (ReorganizingBuffer.new Nat 1)
      { depth := 1, queue := [(U64M - 1, [0])] } (U64M - 1) [0] none
      ReorganizingBuffer.Reachable.base (by decide) rfl
  · rfl

/-- C3 counterexample: on the depth-2 buffer with window [(2, [20])]
(reorg_depth 2 + 1 - 1 = 2 is within depth), push (1, [11]) succeeds —
but only one entry could be removed from the one-entry window, not the
reorg_depth = 2 the claim asserts: the post-window length 1 plus the
claimed removal count 2 does not add up to the pre-window length 1 plus
the one appended entry. -/
theorem c3_counterexample :
    ReorganizingBuffer.push
        ({ depth := 2, queue := [(2, [20])] } : ReorganizingBuffer Nat)
        1 [11] =
      some (.ok none, { depth := 2, queue := [(1, [11])] }) ∧
      ¬ (([(1, [11])] : List (Nat × List Nat)).length + (2 + 1 - 1) =
          ([(2, [20])] : List (Nat × List Nat)).length + 1) := by
  exact ⟨rfl, by decide⟩

/-- C3 as amended (proved): a successful, non-confirming push on a
non-empty window removes exactly min(reorg_depth, window length) entries
from the back and then appends the new entry: the survivors are the
first length - reorg_depth entries (truncated subtraction), and their
count equals length - min(reorg_depth, length). -/
theorem c3_eviction_count {V : Type} {b : ReorganizingBuffer V}
    {o last : Nat} {v w : List V}
    (hq : b.queue.getLast? = some (last, w))
    (hnov : last + 1 < U64M)
    (hle : o ≤ last + 1)
    (hdep : last + 1 - o ≤ b.depth)
    (hnc : b.queue.length - (last + 1 - o) + 1 ≤ b.depth) :
    b.push o v =
      some (.ok none,
        { depth := b.depth,
          queue := b.queue.take (b.queue.length - (last + 1 - o)) ++
            [(o, v)] }) ∧
      (b.queue.take (b.queue.length - (last + 1 - o))).length =
        b.queue.length - min (last + 1 - o) b.queue.length := by
  constructor
  · simp only [ReorganizingBuffer.push, hq]
    rw [if_neg (by omega), if_neg (by omega), if_neg (by omega)]
    refine confirmStep_le ?_
    rw [List.length_append, List.length_take]
    simp only [List.length_singleton]
    omega
  · rw [List.length_take]
    omega

/-- C3 witness: with depth 3 and window [2, 3, 4], pushing offset 2
replaces that entry and everything after it, leaving window [2] — the
example from the claim. -/
theorem c3_witness :
    ReorganizingBuffer.push
        ({ depth := 3, queue := [(2, [2]), (3, [3]), (4, [4])] } :
          ReorganizingBuffer Nat) 2 [99] =
      some (.ok none, { depth := 3, queue := [(2, [99])] }) := by
  have h := (c3_eviction_count
    (b := { depth := 3, queue := [(2, [2]), (3, [3]), (4, [4])] })
    (o := 2) (v := [99]) rfl (by decide) (by decide) (by decide)
    (by decide)).1
  exact h

/-- C6 (confirmed): on a non-empty window with back offset last, a push
of a u64 offset strictly greater than last + 1 fails with
MissingOffset(last + 1) and leaves the buffer state unchanged; and
conversely, MissingOffset is returned under no other condition. -/
theorem c6_gap_rejection {V : Type} (b : ReorganizingBuffer V) (o : Nat)
    (v : List V) (ho : o < U64M) :
    (∀ last w, b.queue.getLast? = some (last, w) → last + 1 < o →
        b.push o v = some (.error (.MissingOffset (last + 1)), b)) ∧
      ∀ e res, b.push o v = some (.error (.MissingOffset e), res) →
        ∃ last w, b.queue.getLast? = some (last, w) ∧ last + 1 < o ∧
          e = last + 1 ∧ res = b := by
  constructor
  · intro last w hq hgt
    simp only [ReorganizingBuffer.push, hq]
    rw [if_neg (by omega), if_pos (by omega)]
  · intro e res hp
    cases hq : b.queue.getLast? with
    | none =>
      have hnil : b.queue = [] := List.getLast?_eq_none_iff.mp hq
      simp only [ReorganizingBuffer.push, hnil, List.getLast?_nil,
        List.nil_append] at hp
      by_cases hd : (1 : Nat) > b.depth
      · rw [confirmStep_gt (by simpa using hd)] at hp
        simp at hp
      · rw [confirmStep_le (by simpa using Nat.le_of_not_lt hd)] at hp
        simp at hp
    | some p =>
      obtain ⟨last, w⟩ := p
      simp only [ReorganizingBuffer.push, hq] at hp
      split at hp
      · exact absurd hp (by simp)
      · split at hp
        · rename_i hnov hgt
          simp only [Option.some.injEq, Prod.mk.injEq,
            Except.error.injEq] at hp
          obtain ⟨h1, h2⟩ := hp
          simp only [ReorganizingBufferError.MissingOffset.injEq] at h1
          exact ⟨last, w, rfl, by omega, h1.symm, h2.symm⟩
        · split at hp
          · simp only [Option.some.injEq, Prod.mk.injEq] at hp
            exact absurd hp.1 (by simp)
          · set q2 := b.queue.take
              (b.queue.length - (last + 1 - o)) ++ [(o, v)] with hq2
            by_cases hc : q2.length > b.depth
            · rw [confirmStep_gt hc] at hp
              simp at hp
            · rw [confirmStep_le (Nat.le_of_not_lt hc)] at hp
              simp at hp

/-- C6 witness: on window [(5, [1])] (depth 3), pushing offset 8 fails
with MissingOffset(6) and leaves the buffer unchanged. -/
theorem c6_witness :
    ReorganizingBuffer.push
        ({ depth := 3, queue := [(5, [1])] } : ReorganizingBuffer Nat)
        8 [2] =
      some (.error (.MissingOffset 6),
        { depth := 3, queue := [(5, [1])] }) := by
  exact (c6_gap_rejection
    ({ depth := 3, queue := [(5, [1])] } : ReorganizingBuffer Nat)
    8 [2] (by decide)).1 5 [1] rfl (by omega)

/-- C7 counterexample: the claim quantifies over every non-empty window,
but on the window [(2 ^ 64 - 1, [0])] with depth 1 (reachable), pushing
offset 2 ^ 64 - 4 has reorg depth 3 > 1, yet the code does not return
DepthExceeded(3) with the window unchanged: it panics on the overflowing
last_offset + 1 before reaching that check (result none). -/
theorem c7_counterexample :
    ReorganizingBuffer.push
        ({ depth := 1, queue := [(U64M - 1, [0])] } :
          ReorganizingBuffer Nat) (U64M - 4) [1] = none ∧
      ¬ ReorganizingBuffer.push
          ({ depth := 1, queue := [(U64M - 1, [0])] } :
            ReorganizingBuffer Nat) (U64M - 4) [1] =
        some (.error (.DepthExceeded 3),
          { depth := 1, queue := [(U64M - 1, [0])] }) := by
  have h : ReorganizingBuffer.push
      ({ depth := 1, queue := [(U64M - 1, [0])] } :
        ReorganizingBuffer Nat) (U64M - 4) [1] = none := rfl
  refine ⟨h, ?_⟩
  intro hcon
  rw [h] at hcon
  exact Option.noConfusion hcon

/-- C7 as amended (proved): on a non-empty window whose back offset last
satisfies last + 1 < 2 ^ 64 (no u64 overflow), pushing offset ≤ last + 1
with reorg depth last + 1 - offset exceeding depth fails with
DepthExceeded(last + 1 - offset) and leaves the buffer state unchanged,
with no partial eviction. -/
theorem c7_depth_exceeded {V : Type} {b : ReorganizingBuffer V}
    {o last : Nat} {v w : List V}
    (hq : b.queue.getLast? = some (last, w))
    (hnov : last + 1 < U64M)
    (hle : o ≤ last + 1)
    (hdep : b.depth < last + 1 - o) :
    b.push o v = some (.error (.DepthExceeded (last + 1 - o)), b) := by
  simp only [ReorganizingBuffer.push, hq]
  rw [if_neg (by omega), if_neg (by omega), if_pos (by omega)]

/-- C7 witness: with depth 3 and window [2, 3, 4], pushing offset 1
(reorg depth 4) fails with DepthExceeded(4) and leaves the window as
[2, 3, 4] — the example from the claim. -/
theorem c7_witness :
    ReorganizingBuffer.push
        ({ depth := 3, queue := [(2, [2]), (3, [3]), (4, [4])] } :
          ReorganizingBuffer Nat) 1 [99] =
      some (.error (.DepthExceeded 4),
        { depth := 3, queue := [(2, [2]), (3, [3]), (4, [4])] }) := by
  exact c7_depth_exceeded rfl (by decide) (by decide) (by decide)

/-- C8 (confirmed): a depth-0 buffer is a pass-through — every reachable
state has an empty window, and every push on such a state immediately
succeeds and returns its own entry as confirmed, leaving the window
empty again. -/
theorem c8_passthrough {V : Type} {b : ReorganizingBuffer V}
    (h : ReorganizingBuffer.Reachable 0 b) :
    b.queue = [] ∧ ∀ o v, b.push o v =
      some (.ok (some (o, v)), { depth := 0, queue := [] }) := by
  have key : b.depth = 0 ∧ b.queue = [] := by
    induction h with
    | base => exact ⟨rfl, rfl⟩
    | step hr ho hp ih =>
      obtain ⟨hd, hqn⟩ := ih
      simp only [ReorganizingBuffer.push, hqn, List.getLast?_nil,
        List.nil_append, hd] at hp
      rw [confirmStep_gt (by simp)] at hp
      simp only [Option.some.injEq, Prod.mk.injEq] at hp
      obtain ⟨h1, h2⟩ := hp
      rw [← h2]
      exact ⟨rfl, rfl⟩
  obtain ⟨hd, hqn⟩ := key
  refine ⟨hqn, ?_⟩
  intro o v
  simp only [ReorganizingBuffer.push, hqn, List.getLast?_nil,
    List.nil_append, hd]
  rw [confirmStep_gt (by simp)]
  rfl

/-- C8 witness: on the fresh depth-0 buffer, pushing (5, [7]) returns
exactly that entry as confirmed and leaves the window empty. -/
theorem c8_witness :
    ReorganizingBuffer.push (ReorganizingBuffer.new Nat 0) 5 [7] =
      some (.ok (some (5, [7])), { depth := 0, queue := [] }) :=
  (c8_passthrough ReorganizingBuffer.Reachable.base).2 5 [7]

/-- C9 counterexample: the claim quantifies over every non-empty window
with window length < reorg depth ≤ depth, but on the reachable depth-3
state with window [(2 ^ 64 - 1, [0])], pushing offset 2 ^ 64 - 3 (reorg
depth 2, window length 1) does not succeed: the code panics on the
overflowing last_offset + 1 (result none), so there is no successful
result at all. -/
theorem c9_counterexample :
    ReorganizingBuffer.Reachable 3
        ({ depth := 3, queue := [(U64M - 1, [0])] } :
          ReorganizingBuffer Nat) ∧
      ¬ ∃ (out : Option (Nat × List Nat)) (st : ReorganizingBuffer Nat),
        ReorganizingBuffer.push
          ({ depth := 3, queue := [(U64M - 1, [0])] } :
            ReorganizingBuffer Nat) (U64M - 3) [1] =
          some (.ok out, st) := by
  constructor
  · exact @ReorganizingBuffer.Reachable.step Nat 3
      (ReorganizingBuffer.new Nat 3)
      { depth := 3, queue := [(U64M - 1, [0])] } (U64M - 1) [0] none
      ReorganizingBuffer.Reachable.base (by decide) rfl
  · rintro ⟨out, st, hcon⟩
    have h : ReorganizingBuffer.push
        ({ depth := 3, queue := [(U64M - 1, [0])] } :
          ReorganizingBuffer Nat) (U64M - 3) [1] = none := rfl
    rw [h] at hcon
    exact Option.noConfusion hcon

/-- C9 as amended (proved): on a non-empty window whose back offset last
satisfies last + 1 < 2 ^ 64 (no u64 overflow), a push whose reorg depth
last + 1 - offset exceeds the window length but stays within depth
succeeds, empties the window, and leaves exactly the single new entry. -/
theorem c9_full_eviction {V : Type} {b : ReorganizingBuffer V}
    {o last : Nat} {v w : List V}
    (hq : b.queue.getLast? = some (last, w))
    (hnov : last + 1 < U64M)
    (hle : o ≤ last + 1)
    (hL : b.queue.length < last + 1 - o)
    (hdep : last + 1 - o ≤ b.depth) :
    b.push o v =
      some (.ok none, { depth := b.depth, queue := [(o, v)] }) := by
  have hne : b.queue ≠ [] := by
    intro hnil
    rw [hnil] at hq
    simp [List.getLast?] at hq
  have hpos : 0 < b.queue.length := List.length_pos.mpr hne
  simp only [ReorganizingBuffer.push, hq]
  rw [if_neg (by omega), if_neg (by omega), if_neg (by omega)]
  have hz : b.queue.length - (last + 1 - o) = 0 := by omega
  rw [hz]
  simp only [List.take_zero, List.nil_append]
  refine confirmStep_le ?_
  simp only [List.length_singleton]
  omega

/-- C9 witness: on window [(5, [1])] with depth 3, pushing offset 3
(reorg depth 3, exceeding the window length 1) succeeds and leaves the
window holding exactly [(3, [9])]. -/
theorem c9_witness :
    ReorganizingBuffer.push
        ({ depth := 3, queue := [(5, [1])] } : ReorganizingBuffer Nat)
        3 [9] =
      some (.ok none, { depth := 3, queue := [(3, [9])] }) :=
  c9_full_eviction rfl (by decide) (by decide) (by decide) (by decide)

/-- C10 (confirmed): get_direction returns Ok(DaiToUsdc) exactly when
dai is sign-positive and usdc is sign-negative, Ok(UsdcToDai) exactly
when dai is sign-negative and usdc is sign-positive, and an error
whenever both sign flags agree; a zero amount is classified purely by
its sign flag, so a positive zero counts as positive. -/
theorem c10_get_direction (a : SwapAmounts) :
    (SwapParser.get_direction a = .ok .DaiToUsdc ↔
        a.dai.is_sign_positive = true ∧ a.usdc.is_sign_negative = true) ∧
      (SwapParser.get_direction a = .ok .UsdcToDai ↔
        a.dai.is_sign_negative = true ∧ a.usdc.is_sign_positive = true) ∧
      ((a.dai.is_sign_positive = a.usdc.is_sign_positive) ↔
        ∃ msg, SwapParser.get_direction a = .error msg) ∧
      ((a.dai.mantissa = 0 ∧ a.dai.negative = false) →
        a.dai.is_sign_positive = true) := by
  obtain ⟨⟨dm, ds, dn⟩, ⟨um, us, un⟩⟩ := a
  cases dn <;> cases un <;>
    simp [SwapParser.get_direction, Decimal.is_sign_positive,
      Decimal.is_sign_negative]

/-- C10 witness: a sign-positive dai amount and a sign-negative usdc
amount classify as DaiToUsdc. -/
theorem c10_witness :
    SwapParser.get_direction
        { dai := { mantissa := 12345, scale := 2, negative := false },
          usdc := { mantissa := 678, scale := 2, negative := true } } =
      .ok .DaiToUsdc :=
  ((c10_get_direction
    { dai := { mantissa := 12345, scale := 2, negative := false },
      usdc := { mantissa := 678, scale := 2, negative := true } }).1).mpr
    (by decide)

end UniswapPlayground
